import Mathlib

/-!
Verification of the medication-adherence backend's two core subsystems
(`src/backend/routes/calendar.js`): the Google-Calendar sync engine
(`generateCalendarEvents`, `shouldTakeToday`, `syncSingleRegimen`, the
`sync-all` route loop) and the rewards/achievement aggregator
(`calculateCurrentStreakFast`, `calculateAchievementsFast`,
`getDailyProgressFast`, `getWeeklyProgressFast`,
`getAchievementProgressFast`, the `claim-daily` route).

Shallow embedding conventions:
* instants are integers counting milliseconds since the epoch (`msPerDay`
  milliseconds per calendar day); JavaScript's `Math.floor(x / msPerDay)`
  is `Int.fdiv`, its `%` is `Int.tmod`;
* calendar dates are integer day numbers, `dayOf t = t.fdiv msPerDay`,
  matching the `%Y-%m-%d` strings the MongoDB pipelines group by;
* JavaScript numbers used for percentages are modelled by `ℚ`
  (the code only forms `completed/total*100`, which is exact);
* the external Google-Calendar provider is a parameter
  `provider : ℕ → ℕ → InsertResult` giving the outcome of inserting
  event number `i` on retry attempt `a`;
* MongoDB writes (`findByIdAndUpdate`) are modelled as returned state.
-/

/-- Milliseconds per calendar day. -/
def msPerDay : ℤ := 86400000

/-- Day number of an instant (JS `Math.floor` division, the same date
arithmetic the `%Y-%m-%d` grouping and `toISOString().split('T')[0]`
comparisons in the source perform). -/
def dayOf (t : ℤ) : ℤ := Int.fdiv t msPerDay

/-- Midnight at the start of an instant's day (JS `setHours(0,0,0,0)`). -/
def startOfDay (t : ℤ) : ℤ := dayOf t * msPerDay

/- ## Calendar sync engine: data model -/

/-- `Regimen.frequency` values (`src/backend/routes/calendar.js`,
`generateCalendarEvents` / `shouldTakeToday`). -/
inductive Frequency where
  | once_daily
  | twice_daily
  | three_times_daily
  | four_times_daily
  | every_other_day
  | weekly
  | custom
deriving DecidableEq, Repr

/-- The `calendarSync` sub-document stored on a regimen. -/
structure CalendarSyncState where
  isEnabled : Bool
  eventIds : List ℕ
deriving DecidableEq, Repr

/-- The fields of a `Regimen` document read by the sync engine.
`customSchedule` entries are minutes after midnight (the source stores
`"HH:MM"` strings and splits them into hours and minutes). -/
structure Regimen where
  medicationName : String
  frequency : Frequency
  customSchedule : List ℕ
  startDate : ℤ
  calendarSync : CalendarSyncState
deriving DecidableEq, Repr

/-- One generated calendar event: `generateCalendarEvents` fills
`summary`/`description` from the medication, a start instant, an end
instant 15 minutes later, and the fixed reminder offsets `[10, 60]`. -/
structure CalEvent where
  summary : String
  startT : ℤ
  endT : ℤ
  reminders : List ℕ
deriving DecidableEq, Repr

/-- Fixed frequency-to-times table of `generateCalendarEvents`
(minutes after midnight; `08:00 = 480` and so on), with the source's
`schedules[regimen.frequency] || ['08:00']` fallback. -/
def scheduleTimes (reg : Regimen) : List ℕ :=
  match reg.frequency with
  | .custom => reg.customSchedule
  | .once_daily => [480]
  | .twice_daily => [480, 1200]
  | .three_times_daily => [480, 840, 1200]
  | .four_times_daily => [480, 720, 960, 1200]
  | .every_other_day => [480]
  | .weekly => [480]

/-- `shouldTakeToday(regimen, date)`: day-difference from `startDate`
by floor division, then JS `%` (truncating remainder, `Int.tmod`). -/
def shouldTakeToday (reg : Regimen) (date : ℤ) : Bool :=
  let daysDiff := Int.fdiv (date - reg.startDate) msPerDay
  match reg.frequency with
  | .every_other_day => Int.tmod daysDiff 2 == 0
  | .weekly => Int.tmod daysDiff 7 == 0
  | _ => true

/-- `generateCalendarEvents(regimen, days)` evaluated at current instant
`now`: the `while (currentDate <= endDate)` loop visits instants
`now + k * msPerDay` for `k = 0 .. days`; each qualifying day contributes
one event per schedule time, started at that day's midnight plus the
time-of-day and lasting 15 minutes. -/
def generateCalendarEvents (reg : Regimen) (days : ℕ) (now : ℤ) : List CalEvent :=
  (List.range (days + 1)).flatMap fun k =>
    let cur := now + (k : ℤ) * msPerDay
    if shouldTakeToday reg cur then
      (scheduleTimes reg).map fun t =>
        let s := startOfDay cur + (t : ℤ) * 60000
        { summary := reg.medicationName
          startT := s
          endT := s + 900000
          reminders := [10, 60] }
    else []

/- ## Calendar sync engine: provider calls and the retry loop -/

/-- Outcome of one `calendar.events.insert` call, as discriminated by the
catch-branches of `syncSingleRegimen` (403 rate limit, 401/invalid_grant,
anything else). -/
inductive InsertResult where
  | ok (id : ℕ)
  | rateLimited
  | authExpired
  | otherError
deriving DecidableEq, Repr

/-- A call issued to the remote provider (the sync path only ever calls
`events.insert`; `events.delete` exists only in the removal route). -/
inductive PCall where
  | insert (eventIdx attempt : ℕ)
  | delete (id : ℕ)
deriving DecidableEq, Repr

/-- The `while (retryCount < maxRetries && !success)` loop body of
`syncSingleRegimen` for one event, with `maxRetries = 3`.  `fuel` is the
number of loop iterations still allowed (`3 - retry`), so the recursion is
structural.  Returns the provider calls issued and either `.error ()`
(the `throw` on an authentication failure) or `.ok (some id)` /
`.ok none` (event created / skipped after exhausting retries). -/
def insertAttempt (provider : ℕ → ℕ → InsertResult) (i : ℕ) :
    ℕ → ℕ → List PCall × Except Unit (Option ℕ)
  | _, 0 => ([], .ok none)
  | retry, fuel + 1 =>
    match provider i retry with
    | .ok id => ([.insert i retry], .ok (some id))
    | .authExpired => ([.insert i retry], .error ())
    | .rateLimited =>
      let p := insertAttempt provider i (retry + 1) fuel
      (.insert i retry :: p.1, p.2)
    | .otherError =>
      if retry + 1 ≥ 3 then ([.insert i retry], .ok none)
      else
        let p := insertAttempt provider i (retry + 1) fuel
        (.insert i retry :: p.1, p.2)

/-- Full retry loop for event `i`: start at `retryCount = 0` with the
three allowed iterations. -/
def insertLoopTr (provider : ℕ → ℕ → InsertResult) (i : ℕ) :
    List PCall × Except Unit (Option ℕ) :=
  insertAttempt provider i 0 3

/-- The `for (let i = 0; i < eventsToCreate.length; i++)` loop of
`syncSingleRegimen`: events are attempted in order; an authentication
throw aborts the whole loop; skipped events contribute nothing;
successful creations are pushed onto `createdEvents` in order. -/
def syncLoopTr (provider : ℕ → ℕ → InsertResult) :
    ℕ → List CalEvent → List PCall × Except Unit (List ℕ)
  | _, [] => ([], .ok [])
  | k, _e :: rest =>
    let p := insertLoopTr provider k
    match p.2 with
    | .error _ => (p.1, .error ())
    | .ok none =>
      let q := syncLoopTr provider (k + 1) rest
      (p.1 ++ q.1, q.2)
    | .ok (some id) =>
      let q := syncLoopTr provider (k + 1) rest
      (p.1 ++ q.1,
        match q.2 with
        | .error e => .error e
        | .ok ids => .ok (id :: ids))

/-- `syncSingleRegimen(regimen, userId)`: generate 14 days of events,
cap at 30 (`events.slice(0, 30)`), run the creation loop, then persist
`calendarSync = { isEnabled: true, eventIds: createdEvents }` and return
`eventsCreated = createdEvents.length`.  The returned pair is (provider
call trace, either the auth failure or (persisted sync state, reported
`eventsCreated`)). -/
def syncSingleRegimen (provider : ℕ → ℕ → InsertResult) (reg : Regimen)
    (now : ℤ) : List PCall × Except Unit (CalendarSyncState × ℕ) :=
  let events := (generateCalendarEvents reg 14 now).take 30
  let p := syncLoopTr provider 0 events
  (p.1,
    match p.2 with
    | .error e => .error e
    | .ok ids => .ok ({ isEnabled := true, eventIds := ids }, ids.length))

/-- Remote id confirmed for event `i`, if any: the first of the three
retry attempts on which the provider reported success.  This is the
"confirmed creation" notion of the spec. -/
def firstOk (provider : ℕ → ℕ → InsertResult) (i : ℕ) : Option ℕ :=
  match provider i 0 with
  | .ok id => some id
  | _ =>
    match provider i 1 with
    | .ok id => some id
    | _ =>
      match provider i 2 with
      | .ok id => some id
      | _ => none

/-- The remote ids of all confirmed creations among `n` attempted
events, in event order. -/
def confirmedIds (provider : ℕ → ℕ → InsertResult) (n : ℕ) : List ℕ :=
  (List.range n).filterMap (firstOk provider)

/-- Number of events `syncSingleRegimen` attempts for a regimen
(14-day window capped at 30). -/
def numEventsFor (reg : Regimen) (now : ℤ) : ℕ :=
  ((generateCalendarEvents reg 14 now).take 30).length

/- ## The `sync-all` route loop -/

/-- Per-regimen failure kinds surfaced by `syncSingleRegimen` or the
15-second `Promise.race` timeout in the `sync-all` route. -/
inductive SyncErr where
  | authExpired
  | timeout
  | other
deriving DecidableEq, Repr

/-- One entry of the `results` array built by the `sync-all` route. -/
structure RegResult where
  regimenId : ℕ
  eventsCreated : ℕ
  success : Bool
  err : Option SyncErr
deriving DecidableEq, Repr

/-- The per-regimen `try { ... } catch (error) { results.push({...,
success: false, error }) }` body of the `sync-all` route: a successful
sync is recorded with its event count, any thrown error is caught and
recorded, and in both cases the loop moves on. -/
def regResult (syncR : ℕ → Except SyncErr ℕ) (r : ℕ) : RegResult :=
  match syncR r with
  | .ok n => { regimenId := r, eventsCreated := n, success := true, err := none }
  | .error e => { regimenId := r, eventsCreated := 0, success := false, err := some e }

/-- `regimens.slice(i, i + 3)` chunking of the `sync-all` route
(`chunkSize = 3`). -/
def chunks3 : List α → List (List α)
  | [] => []
  | [a] => [[a]]
  | [a, b] => [[a, b]]
  | a :: b :: c :: rest => [a, b, c] :: chunks3 rest

/-- The full `sync-all` regimen loop: process every chunk in order and
every regimen of a chunk in order, collecting one `RegResult` per
regimen (the inter-chunk delays have no semantic effect).  `syncR`
abstracts the per-regimen `syncSingleRegimen` outcome. -/
def syncAllResults (syncR : ℕ → Except SyncErr ℕ) (regimens : List ℕ) :
    List RegResult :=
  ((chunks3 regimens).map fun ch => ch.map (regResult syncR)).flatten

/- ## Rewards aggregator: data model -/

/-- `DoseLog.status` values used by the rewards routes. -/
inductive DoseStatus where
  | pending
  | taken
  | missed
  | skipped
deriving DecidableEq, Repr

/-- The fields of a `DoseLog` document read by the rewards helpers. -/
structure DoseLog where
  status : DoseStatus
  scheduledTime : ℤ
  actualTime : Option ℤ
  updatedAt : ℤ
deriving DecidableEq, Repr

/-- Achievement catalogue ids (`getAchievementDefinitions`). -/
inductive AchId where
  | first_dose
  | perfect_week
  | early_bird
  | consistency_champion
  | month_master
  | perfect_timing
  | streak_starter
deriving DecidableEq, Repr

/-- The user's dose logs with `status: 'taken'`. -/
def takenLogs (logs : List DoseLog) : List DoseLog :=
  logs.filter fun l => l.status = DoseStatus.taken

/-- Distinct calendar dates carrying at least one taken dose, in first-
occurrence order (the `$group: { _id: '$dateOnly' }` stage of
`calculateCurrentStreakFast`). -/
def takenDays (logs : List DoseLog) : List ℤ :=
  ((takenLogs logs).map fun l => dayOf l.scheduledTime).dedup

/-- The same distinct dates as a finite set. -/
def takenDayFinset (logs : List DoseLog) : Finset ℤ :=
  (takenDays logs).toFinset

/-- The `for (const dateGroup of groupedDates)` walk of
`calculateCurrentStreakFast`: compare each sorted date with
`today - streak`, increment on match, break on the first mismatch. -/
def streakLoop : List ℤ → ℤ → ℕ → ℕ
  | [], _, s => s
  | d :: rest, t, s => if d = t - (s : ℤ) then streakLoop rest t (s + 1) else s

/-- `calculateCurrentStreakFast(userId)` at day number `today`: the
distinct taken dates, sorted descending, limited to the 365 most recent
(`$sort: { _id: -1 }`, `$limit: 365`), then the walk. -/
def calculateCurrentStreakFast (logs : List DoseLog) (today : ℤ) : ℕ :=
  streakLoop (((takenDays logs).insertionSort (· ≥ ·)).take 365) today 0

/-- Walk backward from day `u` through the date set `D`, counting
consecutive present dates and stopping at the first missing one; `fuel`
bounds the recursion. -/
def walkAux (D : Finset ℤ) : ℤ → ℕ → ℕ
  | _, 0 => 0
  | u, fuel + 1 => if u ∈ D then walkAux D (u - 1) fuel + 1 else 0

/-- The spec's streak ("group taken DoseEvents by local calendar date;
walk backward from today; increment streak while the expected date has
at least one taken event; stop at the first missing date").  Fuel
`D.card` never truncates the walk, because the walked dates are distinct
members of `D` (`walkAux_le_card`). -/
def specStreak (D : Finset ℤ) (today : ℤ) : ℕ :=
  walkAux D today D.card

/-- Count of taken doses logged within 15 minutes of schedule
(`perfectTimingCount` of the `calculateAchievementsFast` pipeline:
`$abs` of `scheduledTime` minus `$ifNull: [actualTime, updatedAt]`
at most 900000 ms). -/
def perfectTimingCount (logs : List DoseLog) : ℕ :=
  ((takenLogs logs).filter fun l =>
    |l.scheduledTime - l.actualTime.getD l.updatedAt| ≤ 900000).length

/-- `calculateWeeklyAdherenceFast` / `calculateMonthlyAdherenceFast`
core: doses with `scheduledTime ≥ lo`, taken count over total count,
times 100; `0` when the window is empty. -/
def adherencePct (logs : List DoseLog) (lo : ℤ) : ℚ :=
  let w := logs.filter fun l => lo ≤ l.scheduledTime
  if w.length = 0 then 0
  else ((w.filter fun l => l.status = DoseStatus.taken).length : ℚ) / (w.length : ℚ) * 100

/-- Weekly adherence window: `oneWeekAgo = now - 7 days`. -/
def weeklyAdherence (logs : List DoseLog) (now : ℤ) : ℚ :=
  adherencePct logs (now - 7 * msPerDay)

/-- Monthly adherence window: `oneMonthAgo = now - 30 days`. -/
def monthlyAdherence (logs : List DoseLog) (now : ℤ) : ℚ :=
  adherencePct logs (now - 30 * msPerDay)

/-- `calculateAchievementsFast(userId)` at current instant `now`: the
ids pushed onto `achievements`, in source order.  Unlock conditions are
exactly the six `if` statements of the source. -/
def unlockedAchievements (logs : List DoseLog) (now : ℤ) : List AchId :=
  (if 1 ≤ (takenLogs logs).length then [AchId.first_dose] else [])
    ++ (if 10 ≤ perfectTimingCount logs then [AchId.perfect_timing] else [])
    ++ (if 7 ≤ calculateCurrentStreakFast logs (dayOf now) then [AchId.streak_starter] else [])
    ++ (if 30 ≤ calculateCurrentStreakFast logs (dayOf now) then [AchId.month_master] else [])
    ++ (if (100 : ℚ) ≤ weeklyAdherence logs now then [AchId.perfect_week] else [])
    ++ (if (95 : ℚ) ≤ monthlyAdherence logs now then [AchId.consistency_champion] else [])

/- ## Daily/weekly progress -/

/-- The `{ total, completed, percentage }` object returned by the
progress helpers. -/
structure Progress where
  total : ℕ
  completed : ℕ
  percentage : ℚ
deriving DecidableEq, Repr

/-- `getDailyProgressFast(userId)`: doses scheduled in
`[today 00:00, tomorrow 00:00)`, with
`percentage = total > 0 ? completed / total * 100 : 0`. -/
def getDailyProgressFast (logs : List DoseLog) (now : ℤ) : Progress :=
  let lo := startOfDay now
  let w := logs.filter fun l => lo ≤ l.scheduledTime ∧ l.scheduledTime < lo + msPerDay
  { total := w.length
    completed := (w.filter fun l => l.status = DoseStatus.taken).length
    percentage :=
      if 0 < w.length then
        ((w.filter fun l => l.status = DoseStatus.taken).length : ℚ) / (w.length : ℚ) * 100
      else 0 }

/-- `getWeeklyProgressFast(userId)`: doses with
`scheduledTime ≥ now - 7 days` (lower bound only, as in the source). -/
def getWeeklyProgressFast (logs : List DoseLog) (now : ℤ) : Progress :=
  let lo := now - 7 * msPerDay
  let w := logs.filter fun l => lo ≤ l.scheduledTime
  { total := w.length
    completed := (w.filter fun l => l.status = DoseStatus.taken).length
    percentage :=
      if 0 < w.length then
        ((w.filter fun l => l.status = DoseStatus.taken).length : ℚ) / (w.length : ℚ) * 100
      else 0 }

/- ## Achievement progress display -/

/-- `getAchievementProgressFast(achievementId, doseLogs)`, including its
hardcoded `streak_starter` (`Math.min(7, 7)`), `perfect_week` and
`consistency_champion` branches and the default branch. -/
def getAchievementProgressFast (a : AchId) (logs : List DoseLog) : ℕ × ℕ :=
  let taken := takenLogs logs
  match a with
  | .first_dose => (min taken.length 1, 1)
  | .perfect_timing =>
    (min ((taken.filter fun l =>
      |(l.actualTime.getD l.updatedAt) - l.scheduledTime| ≤ 900000).length) 10, 10)
  | .streak_starter => (min 7 7, 7)
  | .month_master => (min taken.length 30, 30)
  | .perfect_week => (0, 1)
  | .consistency_champion => (0, 1)
  | .early_bird => (0, 1)

/- ## The claim-daily route -/

/-- The per-user persisted state touched by `POST /claim-daily`:
`lastDailyRewardClaim` and `totalRewardPoints`. -/
structure RewardStore where
  lastClaim : Option ℤ
  points : ℤ
deriving DecidableEq, Repr

/-- The route's guard, evaluated against a previously read snapshot of
`lastDailyRewardClaim`: `lastDailyClaim && lastDailyClaim >= today`
where `today` is midnight of `now`. -/
def claimCheck (snapshot : Option ℤ) (now : ℤ) : Bool :=
  match snapshot with
  | some t => startOfDay now ≤ t
  | none => false

/-- The remainder of the route after the read: reject if the snapshot
says today's bonus was claimed, otherwise set
`lastDailyRewardClaim = now` and `$inc totalRewardPoints` by 10.
Returns the new store and whether the bonus was awarded. -/
def applyClaim (st : RewardStore) (snapshot : Option ℤ) (now : ℤ) :
    RewardStore × Bool :=
  if claimCheck snapshot now then (st, false)
  else ({ lastClaim := some now, points := st.points + 10 }, true)

/-- One full sequential execution of `POST /claim-daily`: read the
store's own `lastDailyRewardClaim`, then apply the guarded update. -/
def claimDaily (st : RewardStore) (now : ℤ) : RewardStore × Bool :=
  applyClaim st st.lastClaim now

/-- Two concurrent `claim-daily` requests interleaved so that both
`User.findById(...).select('lastDailyRewardClaim')` reads happen before
either `findByIdAndUpdate` write — the schedule the route admits because
its read and its write are separate store operations.  Returns the final
store and each request's award flag. -/
def interleavedDoubleClaim (st : RewardStore) (now : ℤ) :
    RewardStore × Bool × Bool :=
  let snap1 := st.lastClaim
  let snap2 := st.lastClaim
  let r1 := applyClaim st snap1 now
  let r2 := applyClaim r1.1 snap2 now
  (r2.1, r1.2, r2.2)

/-- Modelled from the spec: the atomic compare-and-set claim the spec
requires ("an atomic update guarded by the date condition") — the date
check and the conditional write happen as one indivisible store
operation, so under any interleaving two requests serialize. -/
def claimDailyAtomic (st : RewardStore) (now : ℤ) : RewardStore × Bool :=
  if claimCheck st.lastClaim now then (st, false)
  else ({ lastClaim := some now, points := st.points + 10 }, true)

/-- `canClaim st now`: the persisted claim date (if any) is before
today's midnight, so a sequential `claim-daily` would award. -/
def canClaim (st : RewardStore) (now : ℤ) : Prop :=
  ∀ t, st.lastClaim = some t → t < startOfDay now

/-- Walk along a date list (intended: sorted strictly descending),
counting while the head matches the expected date `u` and recursing with
`u - 1`; the list-level counterpart of `walkAux` used to relate the
source's sorted-list walk to the set-level spec walk. -/
def walkFrom : List ℤ → ℤ → ℕ
  | [], _ => 0
  | d :: rest, u => if d = u then walkFrom rest (u - 1) + 1 else 0

/- ## Concrete fixtures used by witnesses and counterexamples -/

/-- Taken doses on days 11 and 10 (one dated after "today" = day 10). -/
def logsFutureDose : List DoseLog :=
  [⟨DoseStatus.taken, 950400000, none, 950400000⟩,
   ⟨DoseStatus.taken, 864000000, none, 864000000⟩]

/-- Taken doses on days 10, 9, 8 and 6 (today = day 10): streak 3. -/
def logsStreak3 : List DoseLog :=
  [⟨DoseStatus.taken, 864000000, some 864000000, 864000000⟩,
   ⟨DoseStatus.taken, 777600000, some 777600000, 777600000⟩,
   ⟨DoseStatus.taken, 691200000, some 691200000, 691200000⟩,
   ⟨DoseStatus.taken, 518400000, some 518400000, 518400000⟩]

/-- A single taken dose on day 10 (today), with a gap the day before. -/
def logsTodayOnly : List DoseLog :=
  [⟨DoseStatus.taken, 864000000, some 864000000, 864000000⟩]

/-- One taken dose per day on days 0–6: a 7-day streak at day 6. -/
def logsStreak7 : List DoseLog :=
  [⟨DoseStatus.taken, 0, some 0, 0⟩,
   ⟨DoseStatus.taken, 86400000, some 86400000, 86400000⟩,
   ⟨DoseStatus.taken, 172800000, some 172800000, 172800000⟩,
   ⟨DoseStatus.taken, 259200000, some 259200000, 259200000⟩,
   ⟨DoseStatus.taken, 345600000, some 345600000, 345600000⟩,
   ⟨DoseStatus.taken, 432000000, some 432000000, 432000000⟩,
   ⟨DoseStatus.taken, 518400000, some 518400000, 518400000⟩]

/-- One additional taken dose scheduled on day 7 (the day after "now")
and logged 50 minutes late, so it is not on time. -/
def futureTakenDose : List DoseLog :=
  [⟨DoseStatus.taken, 604800000, some 607800000, 607800000⟩]

/-- One taken dose on day 0. -/
def logsOnePast : List DoseLog :=
  [⟨DoseStatus.taken, 0, some 0, 0⟩]

/-- One more taken dose on day 1. -/
def extraOnePast : List DoseLog :=
  [⟨DoseStatus.taken, 86400000, some 86400000, 86400000⟩]

/-- The per-regimen outcome used in the C2 counterexample: the second of
five regimens hits a credential-expiry throw, all others succeed with
five events each. -/
def syncROnlySecondAuthFails : ℕ → Except SyncErr ℕ :=
  fun r => if r = 1 then .error .authExpired else .ok 5

/-- A provider that permanently rejects every third event (all three
retry attempts fail with an ordinary error) and otherwise returns the
remote id `100 + i` for event `i`. -/
def providerFailEveryThird : ℕ → ℕ → InsertResult :=
  fun i _a => if (i + 1) % 3 = 0 then .otherError else .ok (100 + i)

/-- A minimal once-daily regimen (15 events over the 14-day window). -/
def regOnceDaily : Regimen :=
  { medicationName := "med"
    frequency := .once_daily
    customSchedule := []
    startDate := 0
    calendarSync := { isEnabled := false, eventIds := [] } }

/-- A provider on which every insertion succeeds immediately. -/
def providerAllOk : ℕ → ℕ → InsertResult := fun i _a => .ok i

/- ## Supporting lemmas: day arithmetic -/

theorem dayOf_bounds (t : ℤ) :
    dayOf t * msPerDay ≤ t ∧ t < (dayOf t + 1) * msPerDay := by
  unfold dayOf msPerDay
  rw [Int.fdiv_eq_ediv _ (by norm_num)]
  omega

theorem startOfDay_le (t : ℤ) : startOfDay t ≤ t := by
  have h := (dayOf_bounds t).1
  unfold startOfDay
  exact h

theorem sameDay_startOfDay {a b : ℤ} (h : dayOf a = dayOf b) :
    startOfDay a = startOfDay b := by
  unfold startOfDay
  rw [h]

/- ## Supporting lemmas: claim-daily -/

theorem claimCheck_false {st : RewardStore} {now : ℤ} (h : canClaim st now) :
    claimCheck st.lastClaim now = false := by
  unfold claimCheck
  cases hst : st.lastClaim with
  | none => rfl
  | some t => exact decide_eq_false (not_le.mpr (h t hst))

theorem claimDaily_award {st : RewardStore} {now : ℤ} (h : canClaim st now) :
    claimDaily st now = ({ lastClaim := some now, points := st.points + 10 }, true) := by
  unfold claimDaily applyClaim
  rw [claimCheck_false h]
  simp

theorem claimCheck_same_day_true {t now : ℤ} (h : startOfDay now ≤ t) :
    claimCheck (some t) now = true := by
  unfold claimCheck
  exact decide_eq_true h

/-- C3.  Two sequential `claim-daily` calls within one calendar day
increment `totalRewardPoints` exactly once (the second is rejected
without incrementing), and one call on each of three consecutive days
increments it three times; the guard compares `now`'s midnight against
the persisted `lastDailyRewardClaim` before incrementing. -/
theorem claimDaily_idempotent_per_day :
    (∀ (st : RewardStore) (n1 n2 : ℤ), canClaim st n1 → dayOf n1 = dayOf n2 → n1 ≤ n2 →
      (claimDaily (claimDaily st n1).1 n2).1.points = st.points + 10
        ∧ (claimDaily st n1).2 = true
        ∧ (claimDaily (claimDaily st n1).1 n2).2 = false)
    ∧ (∀ (st : RewardStore) (d n1 n2 n3 : ℤ), canClaim st n1 →
        dayOf n1 = d → dayOf n2 = d + 1 → dayOf n3 = d + 2 →
        (claimDaily (claimDaily (claimDaily st n1).1 n2).1 n3).1.points = st.points + 30) := by
  constructor
  · intro st n1 n2 h hday _hle
    rw [claimDaily_award h]
    have hcheck : claimCheck (some n1) n2 = true := by
      apply claimCheck_same_day_true
      rw [← sameDay_startOfDay hday]
      exact startOfDay_le n1
    unfold claimDaily applyClaim
    simp [hcheck]
  · intro st d n1 n2 n3 h h1 h2 h3
    rw [claimDaily_award h]
    have hb1 := dayOf_bounds n1
    have hb2 := dayOf_bounds n2
    have hb3 := dayOf_bounds n3
    have hc2 : canClaim ⟨some n1, st.points + 10⟩ n2 := by
      intro t ht
      cases ht
      unfold startOfDay
      rw [h2]
      have := hb1.2
      rw [h1] at this
      exact this
    rw [claimDaily_award hc2]
    have hc3 : canClaim ⟨some n2, st.points + 10 + 10⟩ n3 := by
      intro t ht
      cases ht
      unfold startOfDay
      rw [h3]
      have := hb2.2
      rw [h2] at this
      have heq : (d + 1 + 1) * msPerDay = (d + 2) * msPerDay := by ring
      rw [← heq]
      exact this
    rw [claimDaily_award hc3]
    simp
    ring

/-- Witness for C3: a fresh user claiming at noon of day 0 and noon of
days 0/1/2. -/
theorem claimDaily_idempotent_per_day_witness :
    canClaim ⟨none, 0⟩ 43200000
      ∧ (claimDaily (claimDaily ⟨none, 0⟩ 43200000).1 43400000).1.points = 0 + 10
      ∧ (claimDaily (claimDaily (claimDaily ⟨none, 0⟩ 43200000).1 129600000).1 216000000).1.points
          = 0 + 30 := by
  have hc : canClaim ⟨none, 0⟩ 43200000 := by intro t ht; cases ht
  refine ⟨hc, ?_, ?_⟩
  · exact (claimDaily_idempotent_per_day.1 ⟨none, 0⟩ 43200000 43400000 hc (by decide) (by decide)).1
  · exact claimDaily_idempotent_per_day.2 ⟨none, 0⟩ 0 43200000 129600000 216000000 hc
      (by decide) (by decide) (by decide)

/-- C9 counterexample.  The route's guard is a separate read followed by
an unconditional write, not an atomic compare-and-set: under the
interleaving in which both requests read `lastDailyRewardClaim` before
either writes, both same-day requests pass the date check and the bonus
is awarded twice (20 points instead of 10). -/
theorem claimDaily_race_counterexample :
    (interleavedDoubleClaim ⟨none, 0⟩ 43200000).1.points = 20
      ∧ (interleavedDoubleClaim ⟨none, 0⟩ 43200000).2.1 = true
      ∧ (interleavedDoubleClaim ⟨none, 0⟩ 43200000).2.2 = true := by
  decide

/-- C9 amended.  The guard is a non-atomic read-then-write: whenever the
user can claim, the read-read-write-write interleaving of two same-day
requests awards the bonus twice, whereas the atomic compare-and-set the
spec calls for (`claimDailyAtomic`, which serializes) awards it exactly
once and rejects the second request. -/
theorem claimDaily_race_amended (st : RewardStore) (now : ℤ) (h : canClaim st now) :
    (interleavedDoubleClaim st now).1.points = st.points + 20
      ∧ (interleavedDoubleClaim st now).2.1 = true
      ∧ (interleavedDoubleClaim st now).2.2 = true
      ∧ (claimDailyAtomic (claimDailyAtomic st now).1 now).1.points = st.points + 10
      ∧ (claimDailyAtomic (claimDailyAtomic st now).1 now).2 = false := by
  have hfalse := claimCheck_false h
  have hsecond : claimCheck (some now) now = true :=
    claimCheck_same_day_true (startOfDay_le now)
  unfold interleavedDoubleClaim applyClaim claimDailyAtomic
  simp only [hfalse, hsecond, Bool.false_eq_true, if_false, if_true]
  refine ⟨by ring, ?_, ?_, ?_, ?_⟩ <;> trivial

/-- Witness for C9's amended theorem: a fresh user at noon of day 0. -/
theorem claimDaily_race_amended_witness :
    canClaim ⟨none, 0⟩ 43200000
      ∧ (interleavedDoubleClaim ⟨none, 0⟩ 43200000).1.points = 0 + 20
      ∧ (claimDailyAtomic (claimDailyAtomic ⟨none, 0⟩ 43200000).1 43200000).1.points = 0 + 10 := by
  have hc : canClaim ⟨none, 0⟩ 43200000 := by intro t ht; cases ht
  exact ⟨hc, (claimDaily_race_amended _ _ hc).1, (claimDaily_race_amended _ _ hc).2.2.2.1⟩

/-- C6.  `generateCalendarEvents` is deterministic and side-effect free:
at any fixed current instant, two invocations on the same regimen and
window return identical event lists — the same list, hence the same
length, the same start and end instant at every index, and the same
order.  (In the embedding the function is pure by construction; this
records that the translation of the source body introduces no
nondeterminism and reads no state besides its arguments.) -/
theorem generateCalendarEvents_deterministic (reg : Regimen) (days : ℕ) (now : ℤ) :
    generateCalendarEvents reg days now = generateCalendarEvents reg days now
      ∧ (generateCalendarEvents reg days now).length
          = (generateCalendarEvents reg days now).length
      ∧ ∀ i : ℕ, (generateCalendarEvents reg days now).get? i
          = (generateCalendarEvents reg days now).get? i := by
  exact ⟨rfl, rfl, fun _ => rfl⟩

/-- C7.  Daily and weekly progress compute `percentage` as
`completed / total * 100`, and a window with zero scheduled doses yields
exactly `{ total := 0, completed := 0, percentage := 0 }` (in `ℚ` there
is no NaN to produce; the source's `total > 0 ? ... : 0` branch is what
keeps the JavaScript value away from `NaN`). -/
theorem progress_zero_division_safe (logs : List DoseLog) (now : ℤ) :
    ((getDailyProgressFast logs now).total = 0 →
        getDailyProgressFast logs now = ⟨0, 0, 0⟩)
      ∧ (0 < (getDailyProgressFast logs now).total →
          (getDailyProgressFast logs now).percentage
            = ((getDailyProgressFast logs now).completed : ℚ)
                / ((getDailyProgressFast logs now).total : ℚ) * 100)
      ∧ ((getWeeklyProgressFast logs now).total = 0 →
          getWeeklyProgressFast logs now = ⟨0, 0, 0⟩)
      ∧ (0 < (getWeeklyProgressFast logs now).total →
          (getWeeklyProgressFast logs now).percentage
            = ((getWeeklyProgressFast logs now).completed : ℚ)
                / ((getWeeklyProgressFast logs now).total : ℚ) * 100) := by
  refine ⟨?_, ?_, ?_, ?_⟩
  · intro h
    simp only [getDailyProgressFast] at h ⊢
    rw [List.length_eq_zero] at h
    rw [h]
    simp
  · intro h
    simp only [getDailyProgressFast] at h ⊢
    rw [if_pos h]
  · intro h
    simp only [getWeeklyProgressFast] at h ⊢
    rw [List.length_eq_zero] at h
    rw [h]
    simp
  · intro h
    simp only [getWeeklyProgressFast] at h ⊢
    rw [if_pos h]

/-- Witness for C7: a user with no dose logs gets the all-zero progress
objects, and a user with one taken dose scheduled today gets
`1 / 1 * 100`. -/
theorem progress_zero_division_safe_witness :
    getDailyProgressFast [] 0 = ⟨0, 0, 0⟩
      ∧ getWeeklyProgressFast [] 0 = ⟨0, 0, 0⟩
      ∧ (getDailyProgressFast [⟨DoseStatus.taken, 100, some 100, 100⟩] 0).percentage
          = ((getDailyProgressFast [⟨DoseStatus.taken, 100, some 100, 100⟩] 0).completed : ℚ)
              / ((getDailyProgressFast [⟨DoseStatus.taken, 100, some 100, 100⟩] 0).total : ℚ)
              * 100 := by
  refine ⟨(progress_zero_division_safe [] 0).1 (by decide),
    (progress_zero_division_safe [] 0).2.2.1 (by decide),
    (progress_zero_division_safe [⟨DoseStatus.taken, 100, some 100, 100⟩] 0).2.1 (by decide)⟩

/-- C8.  `getAchievementProgressFast` hardcodes the `streak_starter`
progress to `Math.min(7, 7) = 7` out of 7 (the source's own comment:
"Would need actual streak calculation") instead of applying the streak
counting rule: a user with no dose logs — whose actual streak is 0 — is
reported at full 7/7 progress. -/
theorem achievementProgress_streak_hardcoded :
    getAchievementProgressFast AchId.streak_starter [] = (7, 7)
      ∧ calculateCurrentStreakFast [] 0 = 0 := by
  decide

/- ## Supporting lemmas: sync-all chunking -/

theorem chunks3_flatten_map (f : α → β) :
    ∀ l : List α, ((chunks3 l).map fun ch => ch.map f).flatten = l.map f
  | [] => rfl
  | [_] => rfl
  | [_, _] => rfl
  | a :: b :: c :: rest => by
    simp only [chunks3, List.map_cons, List.flatten_cons]
    rw [chunks3_flatten_map f rest]
    simp

/-- C2 counterexample.  With five regimens where the second raises
`AuthExpired`, the `sync-all` loop does not stop: all five regimens are
attempted and recorded (regimen 2 as a caught per-regimen failure,
regimens 1 and 3–5 as successes), contradicting the claimed
short-circuit and "not attempted" markings. -/
theorem syncAll_no_short_circuit_counterexample :
    (syncAllResults syncROnlySecondAuthFails [0, 1, 2, 3, 4]).length = 5
      ∧ (syncAllResults syncROnlySecondAuthFails [0, 1, 2, 3, 4]).map RegResult.success
          = [true, false, true, true, true]
      ∧ (syncAllResults syncROnlySecondAuthFails [0, 1, 2, 3, 4]).map RegResult.err
          = [none, some SyncErr.authExpired, none, none, none] := by
  decide

/-- C2 amended.  The `sync-all` loop attempts every regimen: each
regimen's entry in `results` is determined solely by its own sync
outcome (success with its event count, or the caught error), so an
authentication-expired throw in one regimen is recorded there and
processing continues through all remaining regimens; no overall
short-circuit or `AuthExpired` flag is produced. -/
theorem syncAll_attempts_every_regimen (syncR : ℕ → Except SyncErr ℕ)
    (regimens : List ℕ) :
    syncAllResults syncR regimens = regimens.map (regResult syncR)
      ∧ (syncAllResults syncR regimens).length = regimens.length := by
  have h := chunks3_flatten_map (regResult syncR) regimens
  unfold syncAllResults
  exact ⟨h, by rw [h, List.length_map]⟩

/- ## Supporting lemmas: the retry loop -/

theorem insertAttempt_no_auth (provider : ℕ → ℕ → InsertResult) (i : ℕ)
    (h : ∀ a, provider i a ≠ .authExpired) :
    (insertAttempt provider i 0 3).2 = .ok (firstOk provider i) := by
  have h0 := h 0
  have h1 := h 1
  have h2 := h 2
  cases hp0 : provider i 0 <;> cases hp1 : provider i 1 <;> cases hp2 : provider i 2 <;>
    simp_all [insertAttempt, firstOk]

theorem insertAttempt_trace (provider : ℕ → ℕ → InsertResult) (i : ℕ) :
    ∀ (fuel retry : ℕ), ∀ c ∈ (insertAttempt provider i retry fuel).1,
      ∃ a, c = PCall.insert i a := by
  intro fuel
  induction fuel with
  | zero => intro retry c hc; simp [insertAttempt] at hc
  | succ f ih =>
    intro retry c hc
    cases hp : provider i retry with
    | ok id =>
      simp only [insertAttempt, hp, List.mem_singleton] at hc
      exact ⟨retry, hc⟩
    | authExpired =>
      simp only [insertAttempt, hp, List.mem_singleton] at hc
      exact ⟨retry, hc⟩
    | rateLimited =>
      simp only [insertAttempt, hp, List.mem_cons] at hc
      rcases hc with hc | hc
      · exact ⟨retry, hc⟩
      · exact ih (retry + 1) c hc
    | otherError =>
      simp only [insertAttempt, hp] at hc
      by_cases hr : retry + 1 ≥ 3
      · simp only [if_pos hr, List.mem_singleton] at hc
        exact ⟨retry, hc⟩
      · simp only [if_neg hr, List.mem_cons] at hc
        rcases hc with hc | hc
        · exact ⟨retry, hc⟩
        · exact ih (retry + 1) c hc

theorem syncLoopTr_trace (provider : ℕ → ℕ → InsertResult) :
    ∀ (evs : List CalEvent) (k : ℕ), ∀ c ∈ (syncLoopTr provider k evs).1,
      ∃ i a, c = PCall.insert i a := by
  intro evs
  induction evs with
  | nil => intro k c hc; simp [syncLoopTr] at hc
  | cons e rest ih =>
    intro k c hc
    have htr : ∀ c ∈ (insertLoopTr provider k).1, ∃ a, c = PCall.insert k a :=
      insertAttempt_trace provider k 3 0
    cases hq : (insertLoopTr provider k).2 with
    | error u =>
      simp only [syncLoopTr, hq] at hc
      obtain ⟨a, ha⟩ := htr c hc
      exact ⟨k, a, ha⟩
    | ok o =>
      cases o with
      | none =>
        simp only [syncLoopTr, hq, List.mem_append] at hc
        rcases hc with hc | hc
        · obtain ⟨a, ha⟩ := htr c hc
          exact ⟨k, a, ha⟩
        · exact ih (k + 1) c hc
      | some id =>
        simp only [syncLoopTr, hq, List.mem_append] at hc
        rcases hc with hc | hc
        · obtain ⟨a, ha⟩ := htr c hc
          exact ⟨k, a, ha⟩
        · exact ih (k + 1) c hc

theorem syncLoopTr_no_auth (provider : ℕ → ℕ → InsertResult)
    (h : ∀ i a, provider i a ≠ .authExpired) :
    ∀ (evs : List CalEvent) (k : ℕ),
      (syncLoopTr provider k evs).2
        = .ok ((List.range evs.length).filterMap fun j => firstOk provider (k + j)) := by
  intro evs
  induction evs with
  | nil => intro k; simp [syncLoopTr]
  | cons e rest ih =>
    intro k
    have hp : (insertLoopTr provider k).2 = .ok (firstOk provider k) :=
      insertAttempt_no_auth provider k (h k)
    have hshift :
        ((List.range rest.length).filterMap fun j => firstOk provider (k + (j + 1)))
          = (List.range rest.length).filterMap fun j => firstOk provider (k + 1 + j) := by
      apply List.filterMap_congr
      intro j _
      have : k + (j + 1) = k + 1 + j := by omega
      rw [this]
    have hrange :
        ((List.range (rest.length + 1)).filterMap fun j => firstOk provider (k + j))
          = (firstOk provider k).toList
            ++ ((List.range rest.length).filterMap fun j => firstOk provider (k + 1 + j)) := by
      rw [List.range_succ_eq_map]
      rw [List.filterMap_cons]
      cases hf : firstOk provider (k + 0) with
      | none =>
        simp only [Option.toList]
        rw [List.filterMap_map]
        rw [← hshift]
        have hk0 : k + 0 = k := by omega
        rw [hk0] at hf
        simp [hf, Function.comp_def]
      | some id =>
        simp only [Option.toList]
        rw [List.filterMap_map]
        rw [← hshift]
        have hk0 : k + 0 = k := by omega
        rw [hk0] at hf
        simp [hf, Function.comp_def]
    cases hf : firstOk provider k with
    | none =>
      simp only [syncLoopTr, hp, hf]
      rw [ih (k + 1)]
      rw [List.length_cons, hrange, hf]
      simp
    | some id =>
      simp only [syncLoopTr, hp, hf]
      rw [ih (k + 1)]
      rw [List.length_cons, hrange, hf]
      simp

/-- C1.  When no provider call reports a credential expiry (so the sync
runs to completion — e.g. some events are rejected permanently with
ordinary errors), `syncSingleRegimen` persists `calendarSync.eventIds`
equal to exactly the remote ids of the confirmed creations (an id enters
the list only when some retry attempt returned success) and reports
`eventsCreated` equal to their number — never the number of attempted
events. -/
theorem syncRegimen_partial_failure (provider : ℕ → ℕ → InsertResult)
    (reg : Regimen) (now : ℤ) (h : ∀ i a, provider i a ≠ .authExpired) :
    (syncSingleRegimen provider reg now).2
      = .ok ({ isEnabled := true,
               eventIds := confirmedIds provider (numEventsFor reg now) },
          (confirmedIds provider (numEventsFor reg now)).length) := by
  have hz :
      ((List.range (numEventsFor reg now)).filterMap fun j => firstOk provider (0 + j))
        = confirmedIds provider (numEventsFor reg now) := by
    unfold confirmedIds
    apply List.filterMap_congr
    intro j _
    rw [Nat.zero_add]
  have hrun := syncLoopTr_no_auth provider h ((generateCalendarEvents reg 14 now).take 30) 0
  unfold numEventsFor at hz
  simp only [syncSingleRegimen, hrun, hz]
  rfl

/-- Witness for C1: a sync over 15 events in which every third creation
fails permanently persists exactly the 10 confirmed remote ids and
reports `eventsCreated = 10`, not 15. -/
theorem syncRegimen_partial_failure_witness :
    (∀ i a, providerFailEveryThird i a ≠ .authExpired)
      ∧ (syncSingleRegimen providerFailEveryThird regOnceDaily 0).2
          = .ok ({ isEnabled := true,
                   eventIds := confirmedIds providerFailEveryThird (numEventsFor regOnceDaily 0) },
              (confirmedIds providerFailEveryThird (numEventsFor regOnceDaily 0)).length)
      ∧ confirmedIds providerFailEveryThird (numEventsFor regOnceDaily 0)
          = [100, 101, 103, 104, 106, 107, 109, 110, 112, 113]
      ∧ numEventsFor regOnceDaily 0 = 15 := by
  have hna : ∀ i a, providerFailEveryThird i a ≠ .authExpired := by
    intro i a
    unfold providerFailEveryThird
    split <;> simp
  exact ⟨hna, syncRegimen_partial_failure providerFailEveryThird regOnceDaily 0 hna,
    by decide, by decide⟩

/-- C10.  A re-sync ignores any previously persisted
`calendarSync.eventIds`: the outcome is identical for any two prior sync
states (the stored list is unconditionally overwritten with only the new
sync's ids), and the sync path issues only `events.insert` calls — never
a deletion of a previously recorded remote id, so earlier provider-side
events remain but are no longer tracked locally. -/
theorem syncRegimen_overwrites_without_delete (provider : ℕ → ℕ → InsertResult)
    (reg : Regimen) (now : ℤ) (old₁ old₂ : CalendarSyncState) :
    syncSingleRegimen provider { reg with calendarSync := old₁ } now
        = syncSingleRegimen provider { reg with calendarSync := old₂ } now
      ∧ ∀ c ∈ (syncSingleRegimen provider reg now).1, ∃ i a, c = PCall.insert i a := by
  constructor
  · rfl
  · intro c hc
    unfold syncSingleRegimen at hc
    exact syncLoopTr_trace provider ((generateCalendarEvents reg 14 now).take 30) 0 c hc

/-- Witness for C10: two syncs of the same regimen carrying different
previously persisted id lists produce identical outcomes, and the first
provider call of a sync is an insert, never a delete. -/
theorem syncRegimen_overwrites_without_delete_witness :
    syncSingleRegimen providerAllOk { regOnceDaily with calendarSync := ⟨true, [5, 6]⟩ } 0
        = syncSingleRegimen providerAllOk { regOnceDaily with calendarSync := ⟨false, []⟩ } 0
      ∧ (∃ i a, PCall.insert 0 0 = PCall.insert i a) := by
  refine ⟨(syncRegimen_overwrites_without_delete providerAllOk regOnceDaily 0
      ⟨true, [5, 6]⟩ ⟨false, []⟩).1, ?_⟩
  exact (syncRegimen_overwrites_without_delete providerAllOk regOnceDaily 0
      ⟨true, [5, 6]⟩ ⟨false, []⟩).2 (PCall.insert 0 0) (by decide)

/- ## Supporting lemmas: the streak walk -/

theorem walkAux_congr :
    ∀ (f : ℕ) (u : ℤ) (D D' : Finset ℤ), (∀ v ≤ u, (v ∈ D ↔ v ∈ D')) →
      walkAux D u f = walkAux D' u f := by
  intro f
  induction f with
  | zero => intro u D D' _; rfl
  | succ f ih =>
    intro u D D' h
    have hu := h u le_rfl
    simp only [walkAux]
    by_cases hmem : u ∈ D
    · rw [if_pos hmem, if_pos (hu.mp hmem)]
      rw [ih (u - 1) D D' fun v hv => h v (by omega)]
    · rw [if_neg hmem, if_neg fun hm => hmem (hu.mpr hm)]

theorem walkAux_le_card : ∀ (f : ℕ) (D : Finset ℤ) (u : ℤ), walkAux D u f ≤ D.card := by
  intro f
  induction f with
  | zero => intro D u; simp [walkAux]
  | succ f ih =>
    intro D u
    simp only [walkAux]
    by_cases hmem : u ∈ D
    · rw [if_pos hmem]
      have hcg : walkAux D (u - 1) f = walkAux (D.erase u) (u - 1) f := by
        apply walkAux_congr
        intro v hv
        rw [Finset.mem_erase]
        constructor
        · intro hvD; exact ⟨by omega, hvD⟩
        · exact And.right
      rw [hcg]
      have h1 := ih (D.erase u) (u - 1)
      have h2 : (D.erase u).card = D.card - 1 := Finset.card_erase_of_mem hmem
      have h3 : 1 ≤ D.card := Finset.card_pos.mpr ⟨u, hmem⟩
      omega
    · rw [if_neg hmem]
      exact Nat.zero_le _

theorem walkAux_succ_cases :
    ∀ (f : ℕ) (D : Finset ℤ) (u : ℤ),
      walkAux D u (f + 1) = walkAux D u f ∨ walkAux D u (f + 1) = f + 1 := by
  intro f
  induction f with
  | zero =>
    intro D u
    by_cases hmem : u ∈ D
    · right
      simp [walkAux, hmem]
    · left
      simp [walkAux, hmem]
  | succ f ih =>
    intro D u
    by_cases hmem : u ∈ D
    · have h1 : walkAux D u (f + 1 + 1) = walkAux D (u - 1) (f + 1) + 1 := by
        simp only [walkAux]
        rw [if_pos hmem]
      have h2 : walkAux D u (f + 1) = walkAux D (u - 1) f + 1 := by
        simp only [walkAux]
        rw [if_pos hmem]
      rcases ih D (u - 1) with h | h
      · left
        rw [h1, h2, h]
      · right
        rw [h1, h]
    · left
      simp only [walkAux]
      rw [if_neg hmem, if_neg hmem]

theorem walkAux_stable (D : Finset ℤ) (u : ℤ) :
    ∀ f, D.card ≤ f → walkAux D u f = walkAux D u D.card := by
  intro f
  induction f with
  | zero =>
    intro hf
    have h0 : D.card = 0 := by omega
    rw [h0]
  | succ f ih =>
    intro hf
    by_cases hcf : D.card ≤ f
    · rcases walkAux_succ_cases f D u with h | h
      · rw [h]
        exact ih hcf
      · exfalso
        have := walkAux_le_card (f + 1) D u
        omega
    · have h1 : D.card = f + 1 := by omega
      rw [h1]

theorem walkAux_mono_set :
    ∀ (f : ℕ) (D D' : Finset ℤ), D ⊆ D' → ∀ u, walkAux D u f ≤ walkAux D' u f := by
  intro f
  induction f with
  | zero => intro D D' _ u; simp [walkAux]
  | succ f ih =>
    intro D D' hsub u
    simp only [walkAux]
    by_cases hmem : u ∈ D
    · rw [if_pos hmem, if_pos (hsub hmem)]
      exact Nat.succ_le_succ (ih D D' hsub (u - 1))
    · rw [if_neg hmem]
      exact Nat.zero_le _

theorem specStreak_mono {D D' : Finset ℤ} (hsub : D ⊆ D') (u : ℤ) :
    specStreak D u ≤ specStreak D' u := by
  unfold specStreak
  have hcard : D.card ≤ D'.card := Finset.card_le_card hsub
  rw [← walkAux_stable D u D'.card hcard]
  exact walkAux_mono_set D'.card D D' hsub u

theorem streakLoop_take :
    ∀ (L : List ℤ) (n s : ℕ) (t : ℤ), L.Pairwise (· > ·) →
      (∀ x ∈ L, x ≤ t - (s : ℤ)) →
      streakLoop (L.take n) t s = s + min (walkFrom L (t - (s : ℤ))) n := by
  intro L
  induction L with
  | nil =>
    intro n s t _ _
    simp [streakLoop, walkFrom]
  | cons d rest ih =>
    intro n s t hpw hle
    obtain ⟨hall, hpwr⟩ := List.pairwise_cons.mp hpw
    cases n with
    | zero => simp [streakLoop]
    | succ n =>
      rw [List.take_succ_cons]
      by_cases hd : d = t - (s : ℤ)
      · have hcast : t - ((s + 1 : ℕ) : ℤ) = t - (s : ℤ) - 1 := by push_cast; ring
        have hrec := ih n (s + 1) t hpwr (by
          intro x hx
          have hxd := hall x hx
          rw [hcast]
          omega)
        rw [hcast] at hrec
        simp only [streakLoop, walkFrom]
        rw [if_pos hd, if_pos hd, hrec]
        omega
      · simp only [streakLoop, walkFrom]
        rw [if_neg hd, if_neg hd]
        simp

theorem walkFrom_eq_walkAux :
    ∀ (L : List ℤ) (u : ℤ) (f : ℕ), L.Pairwise (· > ·) → (∀ x ∈ L, x ≤ u) →
      L.length ≤ f → walkFrom L u = walkAux L.toFinset u f := by
  intro L
  induction L with
  | nil =>
    intro u f _ _ _
    cases f <;> simp [walkFrom, walkAux]
  | cons d rest ih =>
    intro u f hpw hle hf
    cases f with
    | zero => simp at hf
    | succ f =>
      obtain ⟨hall, hpwr⟩ := List.pairwise_cons.mp hpw
      by_cases hd : d = u
      · have hmem : u ∈ (d :: rest).toFinset := by
          simp [hd.symm]
        have hcg : walkAux (d :: rest).toFinset (u - 1) f
            = walkAux rest.toFinset (u - 1) f := by
          apply walkAux_congr
          intro v hv
          simp only [List.toFinset_cons, Finset.mem_insert]
          constructor
          · intro hvm
            rcases hvm with hvm | hvm
            · exfalso
              rw [hd] at hvm
              omega
            · exact hvm
          · intro hvm
            exact Or.inr hvm
        have hrec := ih (u - 1) f hpwr (by
          intro x hx
          have := hall x hx
          omega) (by simpa using hf)
        simp only [walkFrom, walkAux]
        rw [if_pos hd, if_pos hmem, hcg, hrec]
      · have hmem : u ∉ (d :: rest).toFinset := by
          simp only [List.toFinset_cons, Finset.mem_insert, List.mem_toFinset]
          push_neg
          constructor
          · exact fun h => hd h.symm
          · intro hu
            have h1 := hall u hu
            have h2 := hle d (List.mem_cons_self d rest)
            omega
        simp only [walkFrom, walkAux]
        rw [if_neg hd, if_neg hmem]

theorem streakFast_eq_min (logs : List DoseLog) (today : ℤ)
    (h : ∀ x ∈ takenDayFinset logs, x ≤ today) :
    calculateCurrentStreakFast logs today
      = min (specStreak (takenDayFinset logs) today) 365 := by
  have hperm : List.Perm ((takenDays logs).insertionSort (· ≥ ·)) (takenDays logs) :=
    List.perm_insertionSort _ _
  have hnodup0 : (takenDays logs).Nodup := List.nodup_dedup _
  have hnodup : ((takenDays logs).insertionSort (· ≥ ·)).Nodup :=
    hperm.nodup_iff.mpr hnodup0
  have hsorted : ((takenDays logs).insertionSort (· ≥ ·)).Sorted (· ≥ ·) :=
    List.sorted_insertionSort _ _
  have hpw : ((takenDays logs).insertionSort (· ≥ ·)).Pairwise (· > ·) := by
    have hand := List.Pairwise.and hsorted hnodup
    exact hand.imp fun hab => lt_of_le_of_ne hab.1 hab.2.symm
  have hmemL : ∀ x ∈ (takenDays logs).insertionSort (· ≥ ·), x ≤ today := by
    intro x hx
    exact h x (List.mem_toFinset.mpr (hperm.mem_iff.mp hx))
  have hlen : ((takenDays logs).insertionSort (· ≥ ·)).length
      = (takenDayFinset logs).card := by
    rw [hperm.length_eq]
    unfold takenDayFinset
    rw [List.toFinset_card_of_nodup hnodup0]
  have hTF : ((takenDays logs).insertionSort (· ≥ ·)).toFinset = takenDayFinset logs :=
    List.toFinset_eq_of_perm _ _ hperm
  have h1 := streakLoop_take ((takenDays logs).insertionSort (· ≥ ·)) 365 0 today hpw
    (by intro x hx; simpa using hmemL x hx)
  have h2 := walkFrom_eq_walkAux ((takenDays logs).insertionSort (· ≥ ·)) today
    ((takenDayFinset logs).card) hpw hmemL (le_of_eq hlen)
  unfold calculateCurrentStreakFast
  rw [h1]
  have hz : today - ((0 : ℕ) : ℤ) = today := by push_cast; ring
  rw [hz, h2, hTF]
  unfold specStreak
  omega

/-- C4 counterexample.  The claimed equality fails on a dose set
containing a taken dose dated after today: with taken doses on days 11
and 10 and today = day 10, the source's walk starts at the sorted list's
head (day 11), mismatches immediately and returns 0, while the spec's
walk backward from today finds day 10 present and returns 1. -/
theorem streak_future_dose_counterexample :
    calculateCurrentStreakFast logsFutureDose 10 = 0
      ∧ specStreak (takenDayFinset logsFutureDose) 10 = 1 := by
  decide

/-- C4 amended.  Provided no taken dose is dated after today and the
walk-backward streak does not exceed 365 (the pipeline's `$limit: 365`
keeps only the 365 most recent distinct dates),
`calculateCurrentStreakFast` equals the spec's walk: group taken doses
by calendar date, walk backward from today, count consecutive present
dates, stop at the first missing one (multiple doses on a date count
once). -/
theorem streakFast_eq_walk (logs : List DoseLog) (today : ℤ)
    (h : ∀ l ∈ logs, l.status = DoseStatus.taken → dayOf l.scheduledTime ≤ today)
    (h365 : specStreak (takenDayFinset logs) today ≤ 365) :
    calculateCurrentStreakFast logs today = specStreak (takenDayFinset logs) today := by
  have hmem : ∀ x ∈ takenDayFinset logs, x ≤ today := by
    intro x hx
    simp only [takenDayFinset, takenDays, takenLogs, List.mem_toFinset, List.mem_dedup,
      List.mem_map, List.mem_filter, decide_eq_true_eq] at hx
    obtain ⟨l, ⟨hl, hst⟩, hxl⟩ := hx
    rw [← hxl]
    exact h l hl hst
  rw [streakFast_eq_min logs today hmem]
  omega

/-- Witness for C4's amended theorem: taken doses on days
{today, today−1, today−2, today−4} with today = day 10 satisfy both
hypotheses, give streak 3 (broken by the gap at day 7), and a single
taken dose today with a gap yesterday gives streak 1. -/
theorem streakFast_eq_walk_witness :
    (∀ l ∈ logsStreak3, l.status = DoseStatus.taken → dayOf l.scheduledTime ≤ 10)
      ∧ specStreak (takenDayFinset logsStreak3) 10 ≤ 365
      ∧ calculateCurrentStreakFast logsStreak3 10
          = specStreak (takenDayFinset logsStreak3) 10
      ∧ calculateCurrentStreakFast logsStreak3 10 = 3
      ∧ calculateCurrentStreakFast logsTodayOnly 10 = 1 := by
  exact ⟨by decide, by decide, streakFast_eq_walk logsStreak3 10 (by decide) (by decide),
    by decide, by decide⟩

/- ## Supporting lemmas: adherence percentages -/

theorem ratio_extend (θ : ℚ) (t n b : ℕ) (hθ : θ ≤ 100) (htn : t ≤ n)
    (h : θ ≤ if n = 0 then 0 else (t : ℚ) / (n : ℚ) * 100) :
    θ ≤ if n + b = 0 then 0 else ((t + b : ℕ) : ℚ) / ((n + b : ℕ) : ℚ) * 100 := by
  by_cases hn : n = 0
  · rw [if_pos hn] at h
    by_cases hb : b = 0
    · rw [if_pos (by omega)]
      exact h
    · rw [if_neg (by omega)]
      have ht0 : t = 0 := by omega
      rw [hn, ht0]
      have hb0 : (0 : ℚ) < ((0 + b : ℕ) : ℚ) := by
        exact_mod_cast Nat.pos_of_ne_zero (by omega)
      rw [show ((0 + b : ℕ) : ℚ) / ((0 + b : ℕ) : ℚ) = 1 from div_self (ne_of_gt hb0)]
      linarith
  · rw [if_neg hn] at h
    have hn0 : (0 : ℚ) < (n : ℚ) := by exact_mod_cast Nat.pos_of_ne_zero hn
    have hnb : n + b ≠ 0 := by omega
    rw [if_neg hnb]
    have hnb0 : (0 : ℚ) < ((n + b : ℕ) : ℚ) := by
      exact_mod_cast Nat.pos_of_ne_zero hnb
    rw [div_mul_eq_mul_div, le_div_iff₀ hn0] at h
    rw [div_mul_eq_mul_div, le_div_iff₀ hnb0]
    have hbq : (0 : ℚ) ≤ (b : ℚ) := by positivity
    have hstep : θ * (b : ℚ) ≤ 100 * (b : ℚ) := mul_le_mul_of_nonneg_right hθ hbq
    push_cast
    nlinarith

theorem adherence_extend (logs extra : List DoseLog) (lo : ℤ) (θ : ℚ)
    (hθ : θ ≤ 100) (hex : ∀ e ∈ extra, e.status = DoseStatus.taken)
    (h : θ ≤ adherencePct logs lo) : θ ≤ adherencePct (logs ++ extra) lo := by
  unfold adherencePct at h ⊢
  have hext_taken :
      (extra.filter fun l => lo ≤ l.scheduledTime).filter
          (fun l => l.status = DoseStatus.taken)
        = extra.filter fun l => lo ≤ l.scheduledTime := by
    rw [List.filter_eq_self]
    intro l hl
    have := hex l (List.mem_of_mem_filter hl)
    simp [this]
  simp only [List.filter_append, List.length_append, hext_taken]
  simp only [] at h
  exact ratio_extend θ _ _ _ hθ (List.length_filter_le _ _) h

theorem mem_ite_singleton {α : Type} {p : Prop} [Decidable p] {x y : α} :
    (x ∈ if p then [y] else []) ↔ p ∧ x = y := by
  split_ifs with hp <;> simp [hp]

theorem mem_unlocked_iff (logs : List DoseLog) (now : ℤ) (a : AchId) :
    a ∈ unlockedAchievements logs now ↔
      (a = AchId.first_dose ∧ 1 ≤ (takenLogs logs).length)
      ∨ (a = AchId.perfect_timing ∧ 10 ≤ perfectTimingCount logs)
      ∨ (a = AchId.streak_starter ∧ 7 ≤ calculateCurrentStreakFast logs (dayOf now))
      ∨ (a = AchId.month_master ∧ 30 ≤ calculateCurrentStreakFast logs (dayOf now))
      ∨ (a = AchId.perfect_week ∧ (100 : ℚ) ≤ weeklyAdherence logs now)
      ∨ (a = AchId.consistency_champion ∧ (95 : ℚ) ≤ monthlyAdherence logs now) := by
  unfold unlockedAchievements
  simp only [List.mem_append, mem_ite_singleton]
  tauto

/-- C5 counterexample.  Achievement unlock state is not monotonic: a
user with a 7-day streak has `streak_starter` unlocked, but extending
the dose set with one more taken dose — not on time, scheduled on the
day after the current instant — drops the recomputed streak to 0 and
the re-evaluation no longer reports `streak_starter`. -/
theorem achievements_monotone_counterexample :
    AchId.streak_starter ∈ unlockedAchievements logsStreak7 518400000
      ∧ AchId.streak_starter ∉ unlockedAchievements (logsStreak7 ++ futureTakenDose) 518400000
      ∧ (∀ e ∈ futureTakenDose, e.status = DoseStatus.taken
          ∧ ¬ |e.scheduledTime - e.actualTime.getD e.updatedAt| ≤ 900000) := by
  refine ⟨?_, ?_, by decide⟩
  · rw [mem_unlocked_iff]
    refine Or.inr (Or.inr (Or.inl ⟨rfl, ?_⟩))
    decide
  · rw [mem_unlocked_iff]
    intro h
    rcases h with ⟨h, _⟩ | ⟨h, _⟩ | ⟨_, h⟩ | ⟨h, _⟩ | ⟨h, _⟩ | ⟨h, _⟩
    · exact absurd h (by decide)
    · exact absurd h (by decide)
    · exact absurd h (by decide)
    · exact absurd h (by decide)
    · exact absurd h (by decide)
    · exact absurd h (by decide)

/-- C5 amended.  Unlock state is monotonic for additional taken doses
whose calendar date is not after today: if every added dose is taken and
every taken dose (old and new) is dated at most `now`'s day, then every
achievement reported unlocked over `logs` is still reported unlocked
over the extended set — additional non-on-time taken doses never revoke
an unlocked achievement. -/
theorem achievements_monotone (logs extra : List DoseLog) (now : ℤ)
    (hextra : ∀ e ∈ extra, e.status = DoseStatus.taken)
    (hdays : ∀ l ∈ logs ++ extra, l.status = DoseStatus.taken →
      dayOf l.scheduledTime ≤ dayOf now) :
    ∀ a ∈ unlockedAchievements logs now, a ∈ unlockedAchievements (logs ++ extra) now := by
  intro a ha
  rw [mem_unlocked_iff] at ha ⊢
  have htaken_le : (takenLogs logs).length ≤ (takenLogs (logs ++ extra)).length := by
    unfold takenLogs
    rw [List.filter_append, List.length_append]
    omega
  have hperf_le : perfectTimingCount logs ≤ perfectTimingCount (logs ++ extra) := by
    unfold perfectTimingCount takenLogs
    rw [List.filter_append, List.filter_append, List.length_append]
    omega
  have hdmem : ∀ (L : List DoseLog), (∀ l ∈ L, l.status = DoseStatus.taken →
      dayOf l.scheduledTime ≤ dayOf now) →
      ∀ x ∈ takenDayFinset L, x ≤ dayOf now := by
    intro L hL x hx
    simp only [takenDayFinset, takenDays, takenLogs, List.mem_toFinset, List.mem_dedup,
      List.mem_map, List.mem_filter, decide_eq_true_eq] at hx
    obtain ⟨l, ⟨hl, hst⟩, hxl⟩ := hx
    rw [← hxl]
    exact hL l hl hst
  have hstreak_le : calculateCurrentStreakFast logs (dayOf now)
      ≤ calculateCurrentStreakFast (logs ++ extra) (dayOf now) := by
    have hm1 := hdmem logs fun l hl => hdays l (List.mem_append_left _ hl)
    have hm2 := hdmem (logs ++ extra) hdays
    rw [streakFast_eq_min logs _ hm1, streakFast_eq_min (logs ++ extra) _ hm2]
    have hsub : takenDayFinset logs ⊆ takenDayFinset (logs ++ extra) := by
      intro x hx
      simp only [takenDayFinset, takenDays, takenLogs, List.mem_toFinset, List.mem_dedup,
        List.mem_map, List.mem_filter, decide_eq_true_eq] at hx ⊢
      obtain ⟨l, ⟨hl, hst⟩, hxl⟩ := hx
      exact ⟨l, ⟨List.mem_append_left _ hl, hst⟩, hxl⟩
    have := specStreak_mono hsub (dayOf now)
    omega
  rcases ha with ⟨rfl, h⟩ | ⟨rfl, h⟩ | ⟨rfl, h⟩ | ⟨rfl, h⟩ | ⟨rfl, h⟩ | ⟨rfl, h⟩
  · exact Or.inl ⟨rfl, le_trans h htaken_le⟩
  · exact Or.inr (Or.inl ⟨rfl, le_trans h hperf_le⟩)
  · exact Or.inr (Or.inr (Or.inl ⟨rfl, le_trans h hstreak_le⟩))
  · exact Or.inr (Or.inr (Or.inr (Or.inl ⟨rfl, le_trans h hstreak_le⟩)))
  · refine Or.inr (Or.inr (Or.inr (Or.inr (Or.inl ⟨rfl, ?_⟩))))
    exact adherence_extend logs extra _ 100 le_rfl hextra h
  · refine Or.inr (Or.inr (Or.inr (Or.inr (Or.inr ⟨rfl, ?_⟩))))
    exact adherence_extend logs extra _ 95 (by norm_num) hextra h

/-- Witness for C5's amended theorem: a taken dose on day 0 plus an
added taken dose on day 1 evaluated at day 1 keeps `first_dose`
unlocked. -/
theorem achievements_monotone_witness :
    (∀ e ∈ extraOnePast, e.status = DoseStatus.taken)
      ∧ (∀ l ∈ logsOnePast ++ extraOnePast, l.status = DoseStatus.taken →
          dayOf l.scheduledTime ≤ dayOf 86400000)
      ∧ AchId.first_dose ∈ unlockedAchievements (logsOnePast ++ extraOnePast) 86400000 := by
  refine ⟨by decide, by decide, ?_⟩
  exact achievements_monotone logsOnePast extraOnePast 86400000 (by decide) (by decide)
    AchId.first_dose (by rw [mem_unlocked_iff]; exact Or.inl ⟨rfl, by decide⟩)
